import Mathlib

/-!
Shallow embedding of `heapless::HistoryBuffer<T, N>` (file `src/histbuf.rs`).

The backing array `data: [MaybeUninit<T>; N]` is modelled as a list of
`Option T` of length `N`: `some x` is a live (initialized) cell holding `x`,
`none` is a dead (uninitialized) cell.  A read of a dead cell in the source
would be undefined behaviour; in the model it yields `none` (such reads never
happen in reachable states, which the invariant lemmas below establish).
Rust's array-indexing panic (`self.data[self.write_at]` with `write_at` out of
bounds) is modelled by `write` returning `none` ("the call panics").  Machine
integer overflow of `self.write_at += 1` cannot occur: in every state where
the indexing succeeds `write_at < N ≤ usize::MAX`, so the `Nat` model is
faithful.
-/

namespace Heapless

/-- The `HistoryBuffer<T, N>` struct: `data: [MaybeUninit<T>; N]` (modelled as a
length-`N` list of optional values), `write_at: usize`, `filled: bool`. -/
structure HistoryBuffer (T : Type) (N : Nat) where
  data : List (Option T)
  write_at : Nat
  filled : Bool
deriving DecidableEq

namespace HistoryBuffer

/-- `HistoryBuffer::new()`: `data: [Self::INIT; N]` (every cell uninitialized),
`write_at: 0`, `filled: false`. -/
def new (T : Type) (N : Nat) : HistoryBuffer T N :=
  { data := List.replicate N none, write_at := 0, filled := false }

/-- `HistoryBuffer::new_with(t)`: `data: [MaybeUninit::new(t); N]`,
`write_at: 0`, `filled: true`. -/
def new_with (T : Type) (N : Nat) (t : T) : HistoryBuffer T N :=
  { data := List.replicate N (some t), write_at := 0, filled := true }

/-- `HistoryBuffer::clear()`: `*self = Self::new()`. -/
def clear (_b : HistoryBuffer T N) : HistoryBuffer T N :=
  new T N

/-- `HistoryBuffer::clear_with(t)`: `*self = Self::new_with(t)`. -/
def clear_with (_b : HistoryBuffer T N) (t : T) : HistoryBuffer T N :=
  new_with T N t

/-- `HistoryBuffer::len()`: `if self.filled { N } else { self.write_at }`. -/
def len (b : HistoryBuffer T N) : Nat :=
  if b.filled then N else b.write_at

/-- `HistoryBuffer::capacity()`: `N`. -/
def capacity (_b : HistoryBuffer T N) : Nat := N

/-- `HistoryBuffer::write(t)`: drop the old value when `filled` (a no-op for the
value-level model), store `MaybeUninit::new(t)` at `write_at`, increment
`write_at`, and wrap it to `0` setting `filled = true` when it reaches
`self.capacity()`.  Both the `drop_in_place` read and the store index
`self.data[self.write_at]`; if `write_at` is out of bounds that indexing
panics, modelled by the `none` branch. -/
def write (b : HistoryBuffer T N) (t : T) : Option (HistoryBuffer T N) :=
  if b.write_at < b.data.length then
    let d := b.data.set b.write_at (some t)
    if b.write_at + 1 = N then
      some { data := d, write_at := 0, filled := true }
    else
      some { data := d, write_at := b.write_at + 1, filled := b.filled }
  else none

/-- `HistoryBuffer::extend_from_slice(other)`: `for item in other
{ self.write(item.clone()) }`.  A panic in any `write` aborts the loop. -/
def extend_from_slice (b : HistoryBuffer T N) (other : List T) :
    Option (HistoryBuffer T N) :=
  match other with
  | [] => some b
  | item :: rest =>
    match b.write item with
    | some b2 => b2.extend_from_slice rest
    | none => none

/-- `Extend<T> for HistoryBuffer`: `for item in iter.into_iter()
{ self.write(item) }`.  The iterator is modelled by the list of items it
produces, in order. -/
def extend (b : HistoryBuffer T N) (iter : List T) : Option (HistoryBuffer T N) :=
  match iter with
  | [] => some b
  | item :: rest =>
    match b.write item with
    | some b2 => b2.extend rest
    | none => none

/-- `Extend<&'a T> for HistoryBuffer`: `self.extend(iter.into_iter().cloned())`.
Cloning each referenced element yields the same list of values, so this
delegates to `extend` on the same list. -/
def extend_ref (b : HistoryBuffer T N) (iter : List T) :
    Option (HistoryBuffer T N) :=
  b.extend iter

/-- `HistoryBuffer::recent()`: case split on `write_at == 0` and `filled`,
reading `self.data[self.capacity() - 1]` resp. `self.data[self.write_at - 1]`.
In the source those reads `assume_init`; in the model a read of a dead cell
yields `none` (it never happens in reachable states with `N > 0`; for `N = 0`
the source's `self.capacity() - 1` would itself panic/underflow, a case no
claim about `recent` exercises). -/
def recent (b : HistoryBuffer T N) : Option T :=
  if b.write_at = 0 then
    if b.filled then b.data.getD (b.capacity - 1) none
    else none
  else b.data.getD (b.write_at - 1) none

/-- `HistoryBuffer::as_slice()`: `slice::from_raw_parts(self.data.as_ptr(),
self.len())`, i.e. the first `len()` physical cells in raw order. -/
def as_slice (b : HistoryBuffer T N) : List (Option T) :=
  b.data.take b.len

/-- Spec-side definition for the bulk-write equivalence claim, following the
spec's words: "issuing `write` once per item of `items` in order", a pure
sequential composition of `write` (a panic propagates). -/
def write_seq_spec (b : HistoryBuffer T N) (items : List T) :
    Option (HistoryBuffer T N) :=
  items.foldl (fun ob item => ob.bind (fun s => s.write item)) (some b)

/-- The data-model invariant: the backing list has length `N`, the write cursor
is a valid index, and a cell is live exactly when `filled` holds or the cell is
below the cursor. -/
def Inv {T : Type} {N : Nat} (b : HistoryBuffer T N) : Prop :=
  b.data.length = N ∧ b.write_at < N ∧
    ∀ i, i < N →
      ((b.data.getD i none).isSome = (b.filled || decide (i < b.write_at)))

/-- States reachable from `new()` or `new_with(v)` by any sequence of the
public mutating operations (a `write`/bulk-write step requires the call to
return normally, i.e. not panic). -/
inductive Reachable {T : Type} {N : Nat} : HistoryBuffer T N → Prop where
  | ofNew : Reachable (new T N)
  | ofNewWith (v : T) : Reachable (new_with T N v)
  | stepWrite {b b'} (v : T) :
      Reachable b → b.write v = some b' → Reachable b'
  | stepExtend {b b'} (vs : List T) :
      Reachable b → b.extend vs = some b' → Reachable b'
  | stepExtendSlice {b b'} (vs : List T) :
      Reachable b → b.extend_from_slice vs = some b' → Reachable b'
  | stepExtendRef {b b'} (vs : List T) :
      Reachable b → b.extend_ref vs = some b' → Reachable b'
  | stepClear {b} : Reachable b → Reachable b.clear
  | stepClearWith {b} (v : T) : Reachable b → Reachable (b.clear_with v)

/-- `Writes vs b`: starting from the empty buffer `new()`, some sequence of
`write` calls and bulk-extend operations, which in total wrote the values `vs`
in order, produced the state `b`. -/
inductive Writes {T : Type} {N : Nat} : List T → HistoryBuffer T N → Prop where
  | base : Writes [] (new T N)
  | stepWrite {vs b b'} (v : T) :
      Writes vs b → b.write v = some b' → Writes (vs ++ [v]) b'
  | stepExtend {vs b b'} (us : List T) :
      Writes vs b → b.extend us = some b' → Writes (vs ++ us) b'
  | stepExtendSlice {vs b b'} (us : List T) :
      Writes vs b → b.extend_from_slice us = some b' → Writes (vs ++ us) b'
  | stepExtendRef {vs b b'} (us : List T) :
      Writes vs b → b.extend_ref us = some b' → Writes (vs ++ us) b'

/-- Helper for reasoning about buffer contents: reading a write history from
the most recent write backwards, the value of physical slot `n` is the first
value in that backwards reading whose write position is congruent to `n`
modulo `N` (`rs` is the reversed history). -/
def slotValRev (N : Nat) (rs : List T) (n : Nat) : Option T :=
  match rs with
  | [] => none
  | v :: rest => if rest.length % N = n then some v else slotValRev N rest n

/-- The value held by physical slot `n` after the write history `vs` has been
applied to an empty buffer of capacity `N` (`none` when the slot was never
written). -/
def slotVal (N : Nat) (vs : List T) (n : Nat) : Option T :=
  slotValRev N vs.reverse n

/-! ### Modular arithmetic helpers -/

theorem mod_succ_of_eq {k N : Nat} (h : k % N + 1 = N) : (k + 1) % N = 0 := by
  have hd := Nat.div_add_mod k N
  have h1 : k + 1 = N * (k / N + 1) := by rw [Nat.mul_add, Nat.mul_one]; omega
  rw [h1, Nat.mul_mod_right]

theorem mod_succ_of_ne {k N : Nat} (hN : 0 < N) (h : k % N + 1 ≠ N) :
    (k + 1) % N = k % N + 1 := by
  have hd := Nat.div_add_mod k N
  have hlt := Nat.mod_lt k hN
  have h1 : k + 1 = N * (k / N) + (k % N + 1) := by omega
  rw [h1, Nat.mul_add_mod, Nat.mod_eq_of_lt (by omega)]

theorem mod_ne_of_window {k p N : Nat} (hpk : p < k) (hw : k - p < N)
    (h : k % N = p % N) : False := by
  have h0 := Nat.sub_mod_eq_zero_of_mod_eq h
  rw [Nat.mod_eq_of_lt hw] at h0
  omega

theorem sub_mod_add_mod {k n N : Nat} (hn : n < N) :
    (k - k % N + n) % N = n := by
  have hd := Nat.div_add_mod k N
  have h1 : k - k % N + n = N * (k / N) + n := by omega
  rw [h1, Nat.mul_add_mod, Nat.mod_eq_of_lt hn]

theorem sub_add_mod_of_le {k n N : Nat} (hn : n < N) (hNk : N ≤ k)
    (hrn : k % N ≤ n) : (k - N + (n - k % N)) % N = n := by
  have hN : 0 < N := by omega
  have hq : 0 < k / N := Nat.div_pos hNk hN
  obtain ⟨q', hq'⟩ : ∃ q', k / N = q' + 1 := ⟨k / N - 1, by omega⟩
  have hd := Nat.div_add_mod k N
  rw [hq', Nat.mul_add, Nat.mul_one] at hd
  have h1 : k - N + (n - k % N) = N * q' + n := by omega
  rw [h1, Nat.mul_add_mod, Nat.mod_eq_of_lt hn]

/-! ### Basic lemmas about single writes and the invariant -/

theorem write_eq_of_lt {T : Type} {N : Nat} {b : HistoryBuffer T N}
    (h : b.write_at < b.data.length) (t : T) :
    b.write t = some
      { data := b.data.set b.write_at (some t),
        write_at := if b.write_at + 1 = N then 0 else b.write_at + 1,
        filled := b.filled || decide (b.write_at + 1 = N) } := by
  unfold write
  rw [if_pos h]
  by_cases hw : b.write_at + 1 = N <;> simp [hw]

theorem write_mk_eq {T : Type} {N : Nat} {d : List (Option T)} {w : Nat}
    {f : Bool} (hw : w < d.length) (v : T) :
    (HistoryBuffer.mk d w f : HistoryBuffer T N).write v =
      some (HistoryBuffer.mk (d.set w (some v))
        (if w + 1 = N then 0 else w + 1) (f || decide (w + 1 = N))) :=
  write_eq_of_lt hw v

theorem write_none_of_le {T : Type} {N : Nat} {b : HistoryBuffer T N}
    (h : b.data.length ≤ b.write_at) (t : T) : b.write t = none := by
  unfold write
  rw [if_neg (by omega)]

theorem inv_new {T : Type} {N : Nat} (hN : 0 < N) : Inv (new T N) := by
  refine ⟨List.length_replicate _ _, hN, fun i hi => ?_⟩
  simp [new, List.getD_eq_getElem?_getD, List.getElem?_replicate, hi]

theorem inv_new_with {T : Type} {N : Nat} (hN : 0 < N) (v : T) :
    Inv (new_with T N v) := by
  refine ⟨List.length_replicate _ _, hN, fun i hi => ?_⟩
  simp [new_with, List.getD_eq_getElem?_getD, List.getElem?_replicate, hi]

theorem inv_write {T : Type} {N : Nat} {b b' : HistoryBuffer T N} {t : T}
    (h : Inv b) (hw : b.write t = some b') : Inv b' := by
  obtain ⟨hlen, hwa, hcell⟩ := h
  have hlt : b.write_at < b.data.length := by omega
  rw [write_eq_of_lt hlt t] at hw
  obtain rfl := Option.some_injective _ hw
  by_cases hN' : b.write_at + 1 = N
  · refine ⟨by simpa using hlen, by simp [hN']; omega, fun i hi => ?_⟩
    by_cases hie : i = b.write_at
    · subst hie
      simp [hN', List.getD_eq_getElem?_getD, List.getElem?_set_self hlt]
    · rw [List.getD_eq_getElem?_getD,
        List.getElem?_set_ne (fun hc => hie hc.symm),
        ← List.getD_eq_getElem?_getD, hcell i hi]
      have hi' : i < b.write_at := by omega
      simp [hN', hi']
  · refine ⟨by simpa using hlen, by simp [hN']; omega, fun i hi => ?_⟩
    by_cases hie : i = b.write_at
    · subst hie
      simp [hN', List.getD_eq_getElem?_getD, List.getElem?_set_self hlt]
    · rw [List.getD_eq_getElem?_getD,
        List.getElem?_set_ne (fun hc => hie hc.symm),
        ← List.getD_eq_getElem?_getD, hcell i hi]
      have hiff : (i < b.write_at) ↔ (i < b.write_at + 1) := by omega
      simp [hN', hiff]

theorem write_isSome {T : Type} {N : Nat} {b : HistoryBuffer T N}
    (h : Inv b) (t : T) : ∃ b', b.write t = some b' := by
  obtain ⟨hlen, hwa, _⟩ := h
  exact ⟨_, write_eq_of_lt (by omega) t⟩

theorem recent_write {T : Type} {N : Nat} {b b' : HistoryBuffer T N} {t : T}
    (h : Inv b) (hw : b.write t = some b') : b'.recent = some t := by
  obtain ⟨hlen, hwa, _⟩ := h
  have hlt : b.write_at < b.data.length := by omega
  rw [write_eq_of_lt hlt t] at hw
  obtain rfl := Option.some_injective _ hw
  by_cases hN' : b.write_at + 1 = N
  · have hN1 : N - 1 = b.write_at := by omega
    simp [recent, capacity, hN', hN1, List.getD_eq_getElem?_getD,
      List.getElem?_set_self hlt]
  · simp [recent, hN', List.getD_eq_getElem?_getD,
      List.getElem?_set_self hlt]

/-! ### Lemmas about the bulk-write operations -/

theorem extend_cons {T : Type} {N : Nat} (b : HistoryBuffer T N) (v : T)
    (rest : List T) :
    b.extend (v :: rest) = (b.write v).bind (fun s => s.extend rest) := by
  cases hw : b.write v with
  | none => simp only [extend, hw, Option.none_bind]
  | some b2 => simp only [extend, hw, Option.some_bind]

theorem extend_from_slice_cons {T : Type} {N : Nat} (b : HistoryBuffer T N)
    (v : T) (rest : List T) :
    b.extend_from_slice (v :: rest) =
      (b.write v).bind (fun s => s.extend_from_slice rest) := by
  cases hw : b.write v with
  | none => simp only [extend_from_slice, hw, Option.none_bind]
  | some b2 => simp only [extend_from_slice, hw, Option.some_bind]

theorem extend_from_slice_eq_extend {T : Type} {N : Nat} (b : HistoryBuffer T N)
    (vs : List T) : b.extend_from_slice vs = b.extend vs := by
  induction vs generalizing b with
  | nil => rfl
  | cons v rest ih =>
    rw [extend_from_slice_cons, extend_cons]
    cases b.write v with
    | none => rfl
    | some b2 => simpa using ih b2

theorem extend_append {T : Type} {N : Nat} (b : HistoryBuffer T N)
    (vs us : List T) :
    b.extend (vs ++ us) = (b.extend vs).bind (fun s => s.extend us) := by
  induction vs generalizing b with
  | nil => rfl
  | cons v rest ih =>
    rw [List.cons_append, extend_cons, extend_cons]
    cases b.write v with
    | none => rfl
    | some b2 => simpa using ih b2

theorem write_seq_spec_none {T : Type} {N : Nat} (vs : List T) :
    List.foldl
      (fun (ob : Option (HistoryBuffer T N)) item =>
        ob.bind (fun s => s.write item)) none vs = none := by
  induction vs with
  | nil => rfl
  | cons v rest ih => simpa using ih

theorem extend_eq_write_seq_spec {T : Type} {N : Nat} (b : HistoryBuffer T N)
    (vs : List T) : b.extend vs = write_seq_spec b vs := by
  induction vs generalizing b with
  | nil => rfl
  | cons v rest ih =>
    rw [extend_cons]
    unfold write_seq_spec
    simp only [List.foldl_cons, Option.some_bind]
    cases b.write v with
    | none => exact (write_seq_spec_none rest).symm
    | some b2 => simpa using ih b2

theorem inv_extend {T : Type} {N : Nat} {b b' : HistoryBuffer T N}
    {vs : List T} (h : Inv b) (he : b.extend vs = some b') : Inv b' := by
  induction vs generalizing b with
  | nil => obtain rfl := Option.some_injective _ he; exact h
  | cons v rest ih =>
    rw [extend_cons] at he
    cases hw : b.write v with
    | none => rw [hw] at he; exact absurd he (by simp)
    | some b2 =>
      rw [hw, Option.some_bind] at he
      exact ih (inv_write h hw) he

theorem extend_isSome {T : Type} {N : Nat} {b : HistoryBuffer T N}
    (h : Inv b) (vs : List T) : ∃ b', b.extend vs = some b' := by
  induction vs generalizing b with
  | nil => exact ⟨b, rfl⟩
  | cons v rest ih =>
    obtain ⟨b2, hw⟩ := write_isSome h v
    obtain ⟨b', he⟩ := ih (inv_write h hw)
    exact ⟨b', by rw [extend_cons, hw, Option.some_bind]; exact he⟩

theorem recent_extend {T : Type} {N : Nat} {b b' : HistoryBuffer T N}
    {vs : List T} (h : Inv b) (he : b.extend vs = some b') (hne : vs ≠ []) :
    b'.recent = vs.getLast? := by
  induction vs generalizing b with
  | nil => exact absurd rfl hne
  | cons v rest ih =>
    rw [extend_cons] at he
    cases hw : b.write v with
    | none => rw [hw] at he; exact absurd he (by simp)
    | some b2 =>
      rw [hw, Option.some_bind] at he
      cases rest with
      | nil =>
        obtain rfl := Option.some_injective _ he
        simpa using recent_write h hw
      | cons r rest' =>
        rw [ih (inv_write h hw) he (by simp)]
        simp [List.getLast?_cons_cons]

/-! ### Reachability and write-history lemmas -/

theorem inv_reachable {T : Type} {N : Nat} (hN : 0 < N)
    {b : HistoryBuffer T N} (h : Reachable b) : Inv b := by
  induction h with
  | ofNew => exact inv_new hN
  | ofNewWith v => exact inv_new_with hN v
  | stepWrite v _ hw ih => exact inv_write ih hw
  | stepExtend vs _ he ih => exact inv_extend ih he
  | stepExtendSlice vs _ he ih =>
    rw [extend_from_slice_eq_extend] at he; exact inv_extend ih he
  | stepExtendRef vs _ he ih => exact inv_extend ih he
  | stepClear _ _ => exact inv_new hN
  | stepClearWith v _ _ => exact inv_new_with hN v

theorem writes_eq_extend {T : Type} {N : Nat} {vs : List T}
    {b : HistoryBuffer T N} (h : Writes vs b) :
    (new T N).extend vs = some b := by
  induction h with
  | base => rfl
  | stepWrite v _ hw ih =>
    rw [extend_append, ih, Option.some_bind, extend_cons, hw, Option.some_bind]
    rfl
  | stepExtend us _ he ih => rw [extend_append, ih]; simpa using he
  | stepExtendSlice us _ he ih =>
    rw [extend_from_slice_eq_extend] at he
    rw [extend_append, ih]; simpa using he
  | stepExtendRef us _ he ih => rw [extend_append, ih]; simpa using he

theorem inv_writes {T : Type} {N : Nat} (hN : 0 < N) {vs : List T}
    {b : HistoryBuffer T N} (h : Writes vs b) : Inv b :=
  inv_extend (inv_new hN) (writes_eq_extend h)

theorem recent_writes {T : Type} {N : Nat} (hN : 0 < N) {vs : List T}
    {b : HistoryBuffer T N} (h : Writes vs b) (hne : vs ≠ []) :
    b.recent = vs.getLast? :=
  recent_extend (inv_new hN) (writes_eq_extend h) hne

/-! ### Per-slot characterization of the buffer contents -/

theorem slotVal_nil {T : Type} (N n : Nat) : slotVal N ([] : List T) n = none :=
  rfl

theorem slotVal_concat {T : Type} (N : Nat) (vs : List T) (v : T) (n : Nat) :
    slotVal N (vs ++ [v]) n =
      if vs.length % N = n then some v else slotVal N vs n := by
  show slotValRev N (vs ++ [v]).reverse n = _
  rw [List.reverse_append]
  show (if (vs.reverse).length % N = n then some v
        else slotValRev N vs.reverse n) = _
  rw [List.length_reverse]
  rfl

theorem slotVal_window {T : Type} {N : Nat} (_hN : 0 < N) (vs : List T) :
    ∀ p, p < vs.length → vs.length - N ≤ p → slotVal N vs (p % N) = vs[p]? := by
  induction vs using List.reverseRecOn with
  | nil =>
    intro p hp _
    rw [List.length_nil] at hp
    omega
  | append_singleton us v ih =>
    intro p hp hw
    rw [List.length_append, List.length_singleton] at hp hw
    rw [slotVal_concat]
    by_cases hpk : p = us.length
    · subst hpk
      rw [if_pos rfl, List.getElem?_concat_length]
    · have hpk' : p < us.length := by omega
      have hne : us.length % N ≠ p % N :=
        fun h => mod_ne_of_window hpk' (by omega) h
      rw [if_neg hne, List.getElem?_append_left hpk', ih p hpk' (by omega)]

theorem rangeMap_slotVal_set {T : Type} {N : Nat} (hN : 0 < N) (us : List T)
    (v : T) :
    ((List.range N).map (slotVal N us)).set (us.length % N) (some v) =
      (List.range N).map (slotVal N (us ++ [v])) := by
  apply List.ext_getElem?
  intro n
  rw [List.getElem?_set]
  by_cases hmn : us.length % N = n
  · rw [if_pos hmn]
    have hnN : n < N := hmn ▸ Nat.mod_lt us.length hN
    rw [if_pos (by rw [List.length_map, List.length_range]; omega),
      List.getElem?_map, List.getElem?_range hnN]
    simp [slotVal_concat, hmn]
  · rw [if_neg hmn, List.getElem?_map, List.getElem?_map]
    by_cases hnN : n < N
    · rw [List.getElem?_range hnN]
      simp [slotVal_concat, hmn]
    · rw [List.getElem?_eq_none (by rw [List.length_range]; omega)]
      rfl

/-- After the write history `vs` applied to `new()`, the buffer state is
exactly: slot `n` holds `slotVal N vs n`, the cursor is `vs.length % N`, and
`filled` holds iff at least `N` values were written. -/
theorem extend_new_slot {T : Type} {N : Nat} (hN : 0 < N) (vs : List T) :
    (new T N).extend vs = some
      { data := (List.range N).map (slotVal N vs),
        write_at := vs.length % N,
        filled := decide (N ≤ vs.length) } := by
  induction vs using List.reverseRecOn with
  | nil =>
    have h0 : ¬ (N ≤ 0) := by omega
    have hf : slotVal N ([] : List T) = fun _ => (none : Option T) :=
      funext fun n => rfl
    show some (new T N) = _
    rw [hf, List.map_const', List.length_range]
    simp [new, h0]
  | append_singleton us v ih =>
    rw [extend_append, ih, Option.some_bind, extend_cons]
    have hwa : us.length % N < ((List.range N).map (slotVal N us)).length := by
      rw [List.length_map, List.length_range]
      exact Nat.mod_lt _ hN
    rw [write_mk_eq hwa v, Option.some_bind]
    show some _ = some _
    rw [Option.some_inj]
    have hlt := Nat.mod_lt us.length hN
    rw [HistoryBuffer.mk.injEq]
    refine ⟨?_, ?_, ?_⟩
    · show ((List.range N).map (slotVal N us)).set (us.length % N) (some v) =
        (List.range N).map (slotVal N (us ++ [v]))
      exact rangeMap_slotVal_set hN us v
    · show (if us.length % N + 1 = N then 0 else us.length % N + 1) =
        (us ++ [v]).length % N
      rw [List.length_append, List.length_singleton]
      by_cases h : us.length % N + 1 = N
      · rw [if_pos h, mod_succ_of_eq h]
      · rw [if_neg h, mod_succ_of_ne hN h]
    · show (decide (N ≤ us.length) || decide (us.length % N + 1 = N)) =
        decide (N ≤ (us ++ [v]).length)
      rw [List.length_append, List.length_singleton]
      by_cases h1 : N ≤ us.length
      · have h2 : N ≤ us.length + 1 := by omega
        simp [h1, h2]
      · have hmod : us.length % N = us.length := Nat.mod_eq_of_lt (by omega)
        by_cases h3 : us.length % N + 1 = N
        · have h2 : N ≤ us.length + 1 := by omega
          simp [h1, h3, h2]
        · have h2 : ¬ (N ≤ us.length + 1) := by omega
          simp [h1, h3, h2]

/-- Once at least `N` values have been written, the physical contents split
into two contiguous regions: slots `[0, k % N)` hold the writes of the current
incomplete lap and slots `[k % N, N)` hold the writes of the previous lap. -/
theorem rangeMap_slotVal_filled {T : Type} {N : Nat} (hN : 0 < N)
    (vs : List T) (hNk : N ≤ vs.length) :
    (List.range N).map (slotVal N vs) =
      (vs.drop (vs.length - vs.length % N)).map some ++
        ((vs.drop (vs.length - N)).take (N - vs.length % N)).map some := by
  have hr : vs.length % N < N := Nat.mod_lt _ hN
  have hrk : vs.length % N ≤ vs.length := Nat.mod_le _ _
  have hlenA : ((vs.drop (vs.length - vs.length % N)).map some).length =
      vs.length % N := by
    rw [List.length_map, List.length_drop]; omega
  have hlenB : (((vs.drop (vs.length - N)).take
      (N - vs.length % N)).map some).length = N - vs.length % N := by
    rw [List.length_map, List.length_take, List.length_drop]
    rw [Nat.min_eq_left (by omega)]
  apply List.ext_getElem?
  intro n
  by_cases hnN : n < N
  · rw [List.getElem?_map, List.getElem?_range hnN, Option.map_some']
    by_cases hnr : n < vs.length % N
    · have hp : vs.length - vs.length % N + n < vs.length := by omega
      rw [List.getElem?_append_left (by omega),
        List.getElem?_map, List.getElem?_drop,
        List.getElem?_eq_getElem hp, Option.map_some']
      have hmod : (vs.length - vs.length % N + n) % N = n :=
        sub_mod_add_mod hnN
      have hs : slotVal N vs n = vs[vs.length - vs.length % N + n]? := by
        have hwdw := slotVal_window hN vs _ hp (by omega)
        rwa [hmod] at hwdw
      rw [hs, List.getElem?_eq_getElem hp]
    · have hnr' : vs.length % N ≤ n := by omega
      have hp : vs.length - N + (n - vs.length % N) < vs.length := by omega
      rw [List.getElem?_append_right (by omega), hlenA,
        List.getElem?_map, List.getElem?_take, if_pos (by omega),
        List.getElem?_drop, List.getElem?_eq_getElem hp, Option.map_some']
      have hmod : (vs.length - N + (n - vs.length % N)) % N = n :=
        sub_add_mod_of_le hnN hNk hnr'
      have hs : slotVal N vs n = vs[vs.length - N + (n - vs.length % N)]? := by
        have hwdw := slotVal_window hN vs _ hp (by omega)
        rwa [hmod] at hwdw
      rw [hs, List.getElem?_eq_getElem hp]
  · rw [List.getElem?_eq_none (by rw [List.length_map, List.length_range]; omega),
      List.getElem?_eq_none (by rw [List.length_append, hlenA, hlenB]; omega)]

/-- With at least `N` writes, the live contents (in physical order) are a
permutation of the last `N` values written. -/
theorem as_slice_perm_lastN {T : Type} {N : Nat} (hN : 0 < N) (vs : List T)
    (hNk : N ≤ vs.length) {b : HistoryBuffer T N}
    (hb : (new T N).extend vs = some b) :
    b.as_slice.Perm ((vs.drop (vs.length - N)).map some) := by
  rw [extend_new_slot hN vs] at hb
  obtain rfl := Option.some_injective _ hb
  have hfilled : decide (N ≤ vs.length) = true := decide_eq_true hNk
  have hlen : ((List.range N).map (slotVal N vs)).length = N := by
    rw [List.length_map, List.length_range]
  show ((List.range N).map (slotVal N vs)).take _ |>.Perm _
  have hlenN : len (HistoryBuffer.mk ((List.range N).map (slotVal N vs))
      (vs.length % N) (decide (N ≤ vs.length)) : HistoryBuffer T N) = N := by
    rw [len, hfilled, if_pos rfl]
  rw [hlenN, List.take_of_length_le (le_of_eq hlen)]
  rw [rangeMap_slotVal_filled hN vs hNk]
  have hsplit : ((vs.drop (vs.length - N)).take (N - vs.length % N)).map some ++
      (vs.drop (vs.length - vs.length % N)).map some =
      (vs.drop (vs.length - N)).map some := by
    rw [← List.map_append]
    have hdd : (vs.drop (vs.length - N)).drop (N - vs.length % N) =
        vs.drop (vs.length - vs.length % N) := by
      rw [List.drop_drop]
      have : vs.length - N + (N - vs.length % N) =
          vs.length - vs.length % N := by
        have := Nat.mod_le vs.length N
        have := Nat.mod_lt vs.length hN
        omega
      rw [this]
    rw [← hdd, List.take_append_drop]
  rw [← hsplit]
  exact List.perm_append_comm

/-! ### The degenerate capacity `N = 0` -/

theorem extend_of_length_le {T : Type} {N : Nat} {b b' : HistoryBuffer T N}
    (h : b.data.length ≤ b.write_at) {vs : List T}
    (he : b.extend vs = some b') : b' = b := by
  cases vs with
  | nil => exact (Option.some_injective _ he).symm
  | cons v rest =>
    rw [extend_cons, write_none_of_le h v] at he
    exact absurd he (by simp)

theorem reach_zero_data {T : Type} {b : HistoryBuffer T 0}
    (h : Reachable b) : b.data.length = 0 := by
  induction h with
  | ofNew => rfl
  | ofNewWith v => rfl
  | stepWrite v _ hw ih =>
    rw [write_none_of_le (by omega) v] at hw
    exact absurd hw (by simp)
  | stepExtend vs _ he ih =>
    obtain rfl := extend_of_length_le (by omega) he
    exact ih
  | stepExtendSlice vs _ he ih =>
    rw [extend_from_slice_eq_extend] at he
    obtain rfl := extend_of_length_le (by omega) he
    exact ih
  | stepExtendRef vs _ he ih =>
    obtain rfl := extend_of_length_le (by omega) he
    exact ih
  | stepClear _ _ => rfl
  | stepClearWith v _ _ => rfl

/-! ### Claim theorems -/

/-- C1: for every `N > 0` and every nonempty total write history `v₁…vₖ`
(`k ≥ 1`) applied to a freshly constructed empty buffer by `write` and/or the
bulk-extend operations, `recent()` returns `Some` of `vₖ`, the most recently
written value. -/
theorem claim_C1_recent_is_last_write {T : Type} {N : Nat} (hN : 0 < N)
    {vs : List T} {b : HistoryBuffer T N} (hw : Writes vs b) (hne : vs ≠ []) :
    b.recent = some (vs.getLast hne) := by
  rw [recent_writes hN hw hne, List.getLast?_eq_getLast vs hne]

theorem claim_C1_witness :
    0 < 1 ∧
      (HistoryBuffer.mk [some 3] 0 true : HistoryBuffer Nat 1).recent =
        some (([3] : List Nat).getLast (by simp)) := by
  have h0 : (new Nat 1).write 3 =
      some (HistoryBuffer.mk [some 3] 0 true) := by decide
  have hw : Writes [3] (HistoryBuffer.mk [some 3] 0 true : HistoryBuffer Nat 1) :=
    Writes.stepWrite 3 Writes.base h0
  exact ⟨Nat.one_pos, claim_C1_recent_is_last_write Nat.one_pos hw (by simp)⟩

/-- C2: for every `N > 0`, `j ≥ 0` and total write history of `N + j` values
from empty, the length is `N`, `recent()` is the last value written, and the
multiset of `as_slice()` equals the multiset of the last `N` values written. -/
theorem claim_C2_window_multiset {T : Type} {N : Nat} (hN : 0 < N) (j : Nat)
    {vs : List T} {b : HistoryBuffer T N} (hlen : vs.length = N + j)
    (hw : Writes vs b) :
    b.len = N ∧ b.recent = vs.getLast? ∧
      (b.as_slice : Multiset (Option T)) =
        ((vs.drop j).map some : List (Option T)) := by
  have hb := writes_eq_extend hw
  have hNk : N ≤ vs.length := by omega
  have hrec : b.recent = vs.getLast? :=
    recent_writes hN hw (by intro h; rw [h] at hlen; simp at hlen; omega)
  have hperm := as_slice_perm_lastN hN vs hNk hb
  have hj : vs.length - N = j := by omega
  rw [hj] at hperm
  have hms : (b.as_slice : Multiset (Option T)) =
      ((vs.drop j).map some : List (Option T)) := Multiset.coe_eq_coe.mpr hperm
  rw [extend_new_slot hN vs] at hb
  obtain rfl := Option.some_injective _ hb
  refine ⟨?_, hrec, hms⟩
  simp [len, hNk]

theorem claim_C2_witness :
    (0 < 1 ∧ ([5, 6] : List Nat).length = 1 + 1) ∧
      ((HistoryBuffer.mk [some 6] 0 true : HistoryBuffer Nat 1).len = 1 ∧
        (HistoryBuffer.mk [some 6] 0 true : HistoryBuffer Nat 1).recent =
          ([5, 6] : List Nat).getLast? ∧
        ((HistoryBuffer.mk [some 6] 0 true : HistoryBuffer Nat 1).as_slice :
            Multiset (Option Nat)) =
          ((([5, 6] : List Nat).drop 1).map some : List (Option Nat))) := by
  have h5 : (new Nat 1).write 5 =
      some (HistoryBuffer.mk [some 5] 0 true) := by decide
  have h6 : (HistoryBuffer.mk [some 5] 0 true : HistoryBuffer Nat 1).write 6 =
      some (HistoryBuffer.mk [some 6] 0 true) := by decide
  have hw : Writes [5, 6]
      (HistoryBuffer.mk [some 6] 0 true : HistoryBuffer Nat 1) :=
    Writes.stepWrite 6 (Writes.stepWrite 5 Writes.base h5) h6
  exact ⟨⟨Nat.one_pos, by simp⟩,
    claim_C2_window_multiset Nat.one_pos 1 (by simp) hw⟩

/-- C3 counterexample: on a zero-capacity buffer, `write` is not a safe
no-op — `self.data[self.write_at]` indexes a zero-length array, which panics
(modelled by `write` returning `none`). -/
theorem claim_C3_counterexample : (new Nat 0).write 7 = none := by decide

/-- C3 (amended): for `N = 0`, `write(value)` on any reachable
`HistoryBuffer<T, 0>` panics at runtime with an index-out-of-bounds error
(the call never returns normally, so no post-state exists to observe). -/
theorem claim_C3_zero_write_panics {T : Type} {b : HistoryBuffer T 0}
    (h : Reachable b) (v : T) : b.write v = none :=
  write_none_of_le (by rw [reach_zero_data h]; omega) v

theorem claim_C3_witness :
    Reachable (new Nat 0) ∧ (new Nat 0).write 9 = none :=
  ⟨Reachable.ofNew, claim_C3_zero_write_panics Reachable.ofNew 9⟩

/-- C4: in every state reachable from `new()`/`new_with(v)` by public
operations (`N > 0`): `write_at ∈ [0, N)`; when `filled` is false exactly the
cells `[0, write_at)` are live and `len() = write_at`; when `filled` is true
all `N` cells are live and `len() = N`; and `write` wraps `write_at` to `0`
exactly when it would reach `N`, simultaneously setting `filled`. -/
theorem claim_C4_invariant {T : Type} {N : Nat} (hN : 0 < N)
    {b : HistoryBuffer T N} (h : Reachable b) :
    b.write_at < N ∧ b.data.length = N ∧
    (b.filled = false → b.len = b.write_at ∧
      ∀ i, i < N → ((b.data.getD i none).isSome ↔ i < b.write_at)) ∧
    (b.filled = true → b.len = N ∧
      ∀ i, i < N → (b.data.getD i none).isSome) ∧
    (∀ v b', b.write v = some b' →
      (b.write_at + 1 = N → b'.write_at = 0 ∧ b'.filled = true) ∧
      (b.write_at + 1 ≠ N →
        b'.write_at = b.write_at + 1 ∧ b'.filled = b.filled)) := by
  obtain ⟨hlen, hwa, hcell⟩ := inv_reachable hN h
  refine ⟨hwa, hlen, ?_, ?_, ?_⟩
  · intro hf
    refine ⟨by simp [len, hf], fun i hi => ?_⟩
    rw [show ((b.data.getD i none).isSome = true) =
      ((b.filled || decide (i < b.write_at)) = true) from hcell i hi ▸ rfl, hf]
    simp
  · intro hf
    refine ⟨by simp [len, hf], fun i hi => ?_⟩
    rw [hcell i hi, hf]
    simp
  · intro v b' hw
    rw [write_eq_of_lt (by omega) v] at hw
    obtain rfl := Option.some_injective _ hw
    constructor
    · intro hwrap; simp [hwrap]
    · intro hwrap; simp [hwrap]

theorem claim_C4_witness :
    (0 < 1 ∧ Reachable (new Nat 1)) ∧
      ((new Nat 1).write_at < 1 ∧ (new Nat 1).data.length = 1 ∧
      ((new Nat 1).filled = false → (new Nat 1).len = (new Nat 1).write_at ∧
        ∀ i, i < 1 →
          (((new Nat 1).data.getD i none).isSome ↔ i < (new Nat 1).write_at)) ∧
      ((new Nat 1).filled = true → (new Nat 1).len = 1 ∧
        ∀ i, i < 1 → ((new Nat 1).data.getD i none).isSome) ∧
      (∀ v b', (new Nat 1).write v = some b' →
        ((new Nat 1).write_at + 1 = 1 → b'.write_at = 0 ∧ b'.filled = true) ∧
        ((new Nat 1).write_at + 1 ≠ 1 →
          b'.write_at = (new Nat 1).write_at + 1 ∧
            b'.filled = (new Nat 1).filled))) :=
  ⟨⟨Nat.one_pos, Reachable.ofNew⟩,
    claim_C4_invariant Nat.one_pos Reachable.ofNew⟩

/-- C5: `extend_from_slice(items)` produces exactly the same end state as
issuing `write` once per item of `items` in forward order, and so do both
iterator-based `extend` implementations. -/
theorem claim_C5_bulk_write_equivalence {T : Type} {N : Nat}
    (b : HistoryBuffer T N) (items : List T) :
    b.extend_from_slice items = write_seq_spec b items ∧
    b.extend items = write_seq_spec b items ∧
    b.extend_ref items = write_seq_spec b items := by
  refine ⟨?_, extend_eq_write_seq_spec b items, extend_eq_write_seq_spec b items⟩
  rw [extend_from_slice_eq_extend]
  exact extend_eq_write_seq_spec b items

/-- C6: from empty, `len()` equals the number of writes while below `N`, then
stays `N` forever; `len()` is `N` when `filled` else `write_at`; `capacity()`
is always `N`. -/
theorem claim_C6_len {T : Type} {N : Nat} (hN : 0 < N) {vs : List T}
    {b : HistoryBuffer T N} (hw : Writes vs b) :
    (vs.length < N → b.len = vs.length) ∧
    (N ≤ vs.length → b.len = N) ∧
    b.capacity = N ∧
    b.len = (if b.filled then N else b.write_at) := by
  have hb := writes_eq_extend hw
  rw [extend_new_slot hN vs] at hb
  obtain rfl := Option.some_injective _ hb
  refine ⟨?_, ?_, rfl, rfl⟩
  · intro h
    have hnle : ¬ (N ≤ vs.length) := by omega
    simp [len, hnle, Nat.mod_eq_of_lt h]
  · intro h
    simp [len, h]

theorem claim_C6_witness :
    (0 < 2) ∧
      ((([5] : List Nat).length < 2 →
        (HistoryBuffer.mk [some 5, none] 1 false : HistoryBuffer Nat 2).len =
          ([5] : List Nat).length) ∧
      (2 ≤ ([5] : List Nat).length →
        (HistoryBuffer.mk [some 5, none] 1 false : HistoryBuffer Nat 2).len = 2) ∧
      (HistoryBuffer.mk [some 5, none] 1 false : HistoryBuffer Nat 2).capacity = 2 ∧
      (HistoryBuffer.mk [some 5, none] 1 false : HistoryBuffer Nat 2).len =
        (if (HistoryBuffer.mk [some 5, none] 1 false :
          HistoryBuffer Nat 2).filled then 2
         else (HistoryBuffer.mk [some 5, none] 1 false :
          HistoryBuffer Nat 2).write_at)) := by
  have h5 : (new Nat 2).write 5 =
      some (HistoryBuffer.mk [some 5, none] 1 false) := by decide
  have hw : Writes [5]
      (HistoryBuffer.mk [some 5, none] 1 false : HistoryBuffer Nat 2) :=
    Writes.stepWrite 5 Writes.base h5
  exact ⟨by omega, claim_C6_len (by omega) hw⟩

/-- C7: `recent()`'s exact case analysis on every reachable state (`N > 0`):
cursor at `0` and not filled means never written, yielding `none`; cursor at
`0` and filled yields the live element at physical index `N - 1`; otherwise it
yields the live element at physical index `write_at - 1`.  A fresh empty
buffer yields `none`. -/
theorem claim_C7_recent_cases {T : Type} {N : Nat} (hN : 0 < N)
    {b : HistoryBuffer T N} (h : Reachable b) :
    (b.write_at = 0 → b.filled = false → b.recent = none) ∧
    (b.write_at = 0 → b.filled = true →
      ∃ x, b.data.getD (N - 1) none = some x ∧ b.recent = some x) ∧
    (b.write_at ≠ 0 →
      ∃ x, b.data.getD (b.write_at - 1) none = some x ∧ b.recent = some x) ∧
    (new T N).recent = none := by
  obtain ⟨hlen, hwa, hcell⟩ := inv_reachable hN h
  refine ⟨?_, ?_, ?_, by simp [recent, new]⟩
  · intro h0 hf
    simp [recent, h0, hf]
  · intro h0 hf
    have hsome : (b.data.getD (N - 1) none).isSome = true := by
      rw [hcell (N - 1) (by omega), hf]
      simp
    obtain ⟨x, hx⟩ := Option.isSome_iff_exists.mp hsome
    refine ⟨x, hx, ?_⟩
    simp [recent, h0, hf, capacity]
    rw [← List.getD_eq_getElem?_getD]
    exact hx
  · intro h0
    have hsome : (b.data.getD (b.write_at - 1) none).isSome = true := by
      rw [hcell (b.write_at - 1) (by omega)]
      have : b.write_at - 1 < b.write_at := by omega
      simp [this]
    obtain ⟨x, hx⟩ := Option.isSome_iff_exists.mp hsome
    refine ⟨x, hx, ?_⟩
    simp [recent, h0]
    rw [← List.getD_eq_getElem?_getD]
    exact hx

theorem claim_C7_witness :
    (0 < 1 ∧ Reachable (new Nat 1)) ∧
      (((new Nat 1).write_at = 0 → (new Nat 1).filled = false →
        (new Nat 1).recent = none) ∧
      ((new Nat 1).write_at = 0 → (new Nat 1).filled = true →
        ∃ x, (new Nat 1).data.getD (1 - 1) none = some x ∧
          (new Nat 1).recent = some x) ∧
      ((new Nat 1).write_at ≠ 0 →
        ∃ x, (new Nat 1).data.getD ((new Nat 1).write_at - 1) none = some x ∧
          (new Nat 1).recent = some x) ∧
      (new Nat 1).recent = none) :=
  ⟨⟨Nat.one_pos, Reachable.ofNew⟩,
    claim_C7_recent_cases Nat.one_pos Reachable.ofNew⟩

/-- C8: concrete scenario — capacity `4`, bulk-writing `[1,2,3,4,5]` into a
fresh empty buffer leaves the physical slice `[5, 2, 3, 4]`, with length `4`
and `recent()` returning `5`. -/
theorem claim_C8_concrete_scenario :
    ((new Nat 4).extend_from_slice [1, 2, 3, 4, 5]).map
      (fun b => (b.as_slice, b.len, b.recent)) =
      some ([some 5, some 2, some 3, some 4], 4, some 5) := by
  decide

/-- C9: `new_with(v)` (and `clear_with(v)` on any buffer) yields a full buffer
(`len() = N`, `write_at = 0`, `filled`) whose every cell holds `v`; `clear()`
on any buffer restores exactly the state of `new()`, whose length is `0`,
slice is empty and `recent()` is `none`. -/
theorem claim_C9_prefilled_and_clear {T : Type} {N : Nat} (v : T) :
    (new_with T N v).len = N ∧ (new_with T N v).write_at = 0 ∧
    (new_with T N v).filled = true ∧
    (new_with T N v).as_slice = List.replicate N (some v) ∧
    (∀ b : HistoryBuffer T N, b.clear_with v = new_with T N v) ∧
    (∀ b : HistoryBuffer T N, b.clear = new T N) ∧
    (new T N).len = 0 ∧ (new T N).as_slice = [] ∧ (new T N).recent = none := by
  refine ⟨by simp [len, new_with], rfl, rfl, ?_, fun b => rfl, fun b => rfl,
    rfl, ?_, by simp [recent, new]⟩
  · simp [as_slice, new_with, len]
  · simp [as_slice, new, len]

/-- C10 (implicit frame property): on every reachable state with `N > 0`,
`write(value)` succeeds and changes exactly the one storage cell at the
pre-call cursor position — which afterwards holds `value` — leaving every
other cell and the storage length unchanged. -/
theorem claim_C10_write_frame {T : Type} {N : Nat} (hN : 0 < N)
    {b : HistoryBuffer T N} (h : Reachable b) (v : T) :
    ∃ b', b.write v = some b' ∧
      b'.data.getD b.write_at none = some v ∧
      (∀ i, i ≠ b.write_at → b'.data.getD i none = b.data.getD i none) ∧
      b'.data.length = b.data.length := by
  obtain ⟨hlen, hwa, hcell⟩ := inv_reachable hN h
  have hlt : b.write_at < b.data.length := by omega
  refine ⟨_, write_eq_of_lt hlt v, ?_, ?_, by simp⟩
  · simp [List.getD_eq_getElem?_getD, List.getElem?_set_self hlt]
  · intro i hi
    rw [List.getD_eq_getElem?_getD,
      List.getElem?_set_ne (fun hc => hi hc.symm), ← List.getD_eq_getElem?_getD]

theorem claim_C10_witness :
    (0 < 1 ∧ Reachable (new Nat 1)) ∧
      (∃ b', (new Nat 1).write 7 = some b' ∧
        b'.data.getD (new Nat 1).write_at none = some 7 ∧
        (∀ i, i ≠ (new Nat 1).write_at →
          b'.data.getD i none = (new Nat 1).data.getD i none) ∧
        b'.data.length = (new Nat 1).data.length) :=
  ⟨⟨Nat.one_pos, Reachable.ofNew⟩,
    claim_C10_write_frame Nat.one_pos Reachable.ofNew 7⟩

end HistoryBuffer

end Heapless
